import Mathlib

/-!
Verification of the MinHash similarity index (`src/sentry/similarity.py`).

The Python source is shallowly embedded below: pure helpers become Lean
functions; Python exceptions (AssertionError, ValueError, ZeroDivisionError,
StopIteration) become `Option`/`Except` failures; Redis-backed storage is
modelled as an explicit `Storage` record of the membership sets and frequency
sorted-sets that `record` writes and `query` reads.
-/

namespace Sentry

/-- Tokens, keys and scopes are opaque values in the source (strings or
tuples); they are modelled as natural numbers.  Encoded bucket sequences
(the byte strings produced by the bucket formatter and stored in Redis) are
likewise opaque to `query` and are modelled as naturals. -/
abbrev Token := Nat

/-- Opaque caller key (a string in the source). -/
abbrev Key := Nat

/-- Opaque scope string. -/
abbrev Scope := Nat

/-- Opaque encoded bucket sequence (a byte string in the source). -/
abbrev Enc := Nat

/-- Sequential evaluation of a fallible function over a list, stopping at the
first failure: the embedding of a Python `map`/comprehension in which the
mapped call may raise. -/
def mapO {α β : Type} (f : α → Option β) : List α → Option (List β)
  | [] => some []
  | x :: xs => do
    let y ← f x
    let ys ← mapO f xs
    pure (y :: ys)

/-- Embedding of `scale_to_total` (`similarity.py` lines 10-16).  Converts a
mapping of quantities to a mapping of proportions of the total.  Python float
division by a zero total raises `ZeroDivisionError`, hence the `Option`: the
division is only reached when the mapping is non-empty. -/
def scale_to_total {α : Type} (value : List (α × ℚ)) : Option (List (α × ℚ)) :=
  let total := (value.map Prod.snd).sum
  mapO (fun kv => if total = 0 then none else some (kv.1, kv.2 / total)) value

/-- Lookup in a mapping represented as an association list, defaulting to 0:
the embedding of Python's `dict.get(k, 0)`. -/
def dictGet {α : Type} [DecidableEq α] (m : List (α × ℚ)) (k : α) : ℚ :=
  match m.find? (fun kv => decide (kv.1 = k)) with
  | some kv => kv.2
  | none => 0

/-- Embedding of `get_distance` (lines 19-31): the N-dimensional Euclidean
distance between two sparse mappings, summed over the union of their key
sets (`set(target) | set(other)`). -/
noncomputable def get_distance {α : Type} [DecidableEq α]
    (target other : List (α × ℚ)) : ℝ :=
  Real.sqrt
    ((((target.map Prod.fst ++ other.map Prod.fst).dedup).map
      (fun k => (dictGet target k - dictGet other k) ^ 2)).sum : ℚ)

/-- The four fixed-width unsigned big-endian packers registered in
`formatters` (lines 34-39): `>B`, `>H`, `>L`, `>Q`. -/
inductive PackFormat : Type
  | B
  | H
  | L
  | Q
deriving DecidableEq, Repr

/-- Maximum value representable by each packer, as in the `formatters`
table. -/
def PackFormat.maxValue : PackFormat → ℕ
  | .B => 2 ^ 8 - 1
  | .H => 2 ^ 16 - 1
  | .L => 2 ^ 32 - 1
  | .Q => 2 ^ 64 - 1

/-- Byte width of each packer. -/
def PackFormat.width : PackFormat → ℕ
  | .B => 1
  | .H => 2
  | .L => 4
  | .Q => 8

/-- Embedding of the `formatters` list (lines 34-39), already in the sorted
order produced by `sorted`. -/
def formatters : List (ℕ × PackFormat) :=
  [(2 ^ 8 - 1, .B), (2 ^ 16 - 1, .H), (2 ^ 32 - 1, .L), (2 ^ 64 - 1, .Q)]

/-- Failure modes of `get_number_formatter`: the `assert size > 0` and the
final `ValueError`. -/
inductive PackError : Type
  | assertionError
  | valueError
deriving DecidableEq, Repr

/-- Embedding of `get_number_formatter` (lines 42-53): return the first
registered formatter whose maximum is at least `size`, raising `ValueError`
when none qualifies; `assert size > 0` guards entry. -/
def get_number_formatter (size : ℕ) : Except PackError PackFormat :=
  if 0 < size then
    match formatters.find? (fun mf => decide (size ≤ mf.1)) with
    | some mf => .ok mf.2
    | none => .error .valueError
  else .error .assertionError

/-- Modelled from the spec: `MinHashIndex.__init__` seeds Python's stdlib
Mersenne-Twister generator with the fixed seed 0 (`random.Random(0)`); the
stdlib generator itself is not part of this repository, and spec §4.1/§9
require only "any seeded deterministic permutation generator".  A linear
congruential step stands in for the generator state transition. -/
def lcg (s : ℕ) : ℕ := (1103515245 * s + 12345) % 2 ^ 31

/-- Modelled from the spec: the in-place `generator.shuffle(value)` call is
modelled as a deterministic permutation of the input driven by the generator
state (a rotation by a state-dependent amount), returning the permuted list
together with the advanced generator state that the next shuffle observes. -/
def shuffle (g : ℕ) (l : List ℕ) : List ℕ × ℕ :=
  (l.rotate (g % (l.length + 1)), lcg g)

/-- Inner comprehension of `MinHashIndex.__init__` (line 101): the `buckets`
successive shuffles of `range(rows)` for one band, threading the generator
state left to right. -/
def mkBuckets (rows : ℕ) : ℕ → ℕ → List (List ℕ) × ℕ
  | g, 0 => ([], g)
  | g, n + 1 =>
    let p := shuffle g (List.range rows)
    let rest := mkBuckets rows p.2 n
    (p.1 :: rest.1, rest.2)

/-- Outer comprehension of `MinHashIndex.__init__` (lines 100-103): `bands`
successive bands of `buckets` permutations each, threading one generator
state through the whole table. -/
def mkBands (rows buckets : ℕ) : ℕ → ℕ → List (List (List ℕ)) × ℕ
  | g, 0 => ([], g)
  | g, n + 1 =>
    let b := mkBuckets rows g buckets
    let rest := mkBands rows buckets b.2 n
    (b.1 :: rest.1, rest.2)

/-- State of a `MinHashIndex` instance (lines 88-105): the cluster handle,
the row count, the permutation table `self.bands`, and the chosen bucket
formatter.  The constant namespace prefix `b'sim'` only contributes to
storage key strings and is left implicit in the `Storage` model. -/
structure MinHashIndex (C : Type) : Type where
  cluster : C
  rows : ℕ
  bands : List (List (List ℕ))
  bucket_formatter : PackFormat

/-- Embedding of `MinHashIndex.__init__` (lines 88-105): builds the
permutation table from the fixed seed and selects the bucket formatter via
`get_number_formatter(rows)`, whose assertion or `ValueError` aborts
construction. -/
def MinHashIndex.init {C : Type} (cluster : C) (rows bands buckets : ℕ) :
    Option (MinHashIndex C) :=
  match get_number_formatter rows with
  | .ok fmt => some ⟨cluster, rows, (mkBands rows buckets 0 bands).1, fmt⟩
  | .error _ => none

/-- Modelled from the spec: Python's builtin `hash` (not part of this
repository) is a fixed uniform deterministic function of the token within a
process; tokens being opaque, it is modelled as the identity on token ids. -/
def pythonHash (t : Token) : ℕ := t

/-- Embedding of `MinHashIndex.get_signature` (lines 112-121): reduce every
token to a column modulo `rows` (Python raises `ZeroDivisionError` when
`rows = 0`), then for every band and every permutation take the index of the
first entry that is an occupied column; `next` on an exhausted scan raises
`StopIteration`, hence `none`. -/
def MinHashIndex.get_signature {C : Type} (idx : MinHashIndex C)
    (value : List Token) : Option (List (List ℕ)) := do
  let cols ← mapO
    (fun t => if idx.rows = 0 then none else some (pythonHash t % idx.rows)) value
  let columns := cols.dedup
  mapO
    (fun band => mapO (fun permutation =>
      permutation.findIdx? (fun a => decide (a ∈ columns))) band)
    idx.bands

/-- A per-band normalized bucket frequency distribution, as produced by
`scale_to_total`: a mapping from encoded bucket sequence to proportion. -/
abbrev FreqDist := List (Enc × ℚ)

/-- Embedding of `MinHashIndex.get_similarity` (lines 123-142): the two
`assert len(...)` guards, then `1 - sum(distances) / sqrt(2) / len(target)`.
Python's division by `len(target)` raises `ZeroDivisionError` when the index
has zero bands, hence the inner guard. -/
noncomputable def MinHashIndex.get_similarity {C : Type} (idx : MinHashIndex C)
    (target other : List FreqDist) : Option ℝ :=
  if target.length = other.length ∧ target.length = idx.bands.length then
    if target.length = 0 then none
    else
      some (1 -
        (((target.zip other).map fun lr => get_distance lr.1 lr.2).sum /
          Real.sqrt 2 / (target.length : ℝ)))
  else none

/-- The storage state read by `query`: for each `(scope, band, encoded
buckets)` the Redis set of member keys (`smembers`), and for each
`(scope, band, key)` the Redis sorted-set contents with scores
(`zrange(..., withscores=True)`), as an association list of
`(encoded buckets, count)`. -/
structure Storage : Type where
  membership : Scope → ℕ → Enc → List Key
  frequency : Scope → ℕ → Key → List (Enc × ℚ)

/-- Redis `smembers` yields a set: distinct members. -/
def Storage.smembers (st : Storage) (scope : Scope) (band : ℕ) (enc : Enc) :
    List Key :=
  (st.membership scope band enc).dedup

/-- Union of two Python sets represented as duplicate-free lists. -/
def lunion (a b : List Key) : List Key := a ++ b.filter (fun k => decide (k ∉ a))

/-- Per-key body of `fetch_bucket_frequencies` (lines 155-183): fetch the
frequency sorted-set of the key for each band index and normalize it with
`scale_to_total`; any `ZeroDivisionError` propagates. -/
def fetch_key_frequencies {C : Type} (st : Storage) (idx : MinHashIndex C)
    (scope : Scope) (key : Key) : Option (List FreqDist) :=
  mapO (fun band => scale_to_total (st.frequency scope band key))
    (List.range idx.bands.length)

/-- Embedding of `fetch_bucket_frequencies` (lines 155-183) over a list of
keys, returning the dict as an association list in key order. -/
def fetch_bucket_frequencies {C : Type} (st : Storage) (idx : MinHashIndex C)
    (scope : Scope) (keys : List Key) : Option (List (Key × List FreqDist)) :=
  mapO (fun key => (fetch_key_frequencies st idx scope key).map
    (fun freqs => (key, freqs))) keys

/-- Embedding of `fetch_candidates` (lines 185-207): for each band of the
argument (the query key's frequency distributions, whose dict keys are the
encoded bucket sequences), fetch the membership set of every encoded bucket
sequence and union them into a single set per band. -/
def fetch_candidates (st : Storage) (scope : Scope)
    (signature : List FreqDist) : List (List Key) :=
  signature.enum.map fun bandBuckets =>
    (bandBuckets.2.map Prod.fst).foldl
      (fun values bucket => lunion values (st.smembers scope bandBuckets.1 bucket))
      []

/-- Comparison key of the final `sorted` call (line 231): ascending
lexicographic order on `(similarity * -1, key)`. -/
def simOrder (p q : Key × ℝ) : Prop :=
  q.2 < p.2 ∨ (p.2 = q.2 ∧ p.1 ≤ q.1)

/-- Embedding of `MinHashIndex.query` (lines 144-232): fetch the key's own
normalized frequency vectors, union the per-band candidate sets, fetch every
candidate's frequency vectors, score each against the key's own vectors, and
sort by descending similarity with ties broken by ascending key. -/
noncomputable def MinHashIndex.query {C : Type} (st : Storage)
    (idx : MinHashIndex C) (scope : Scope) (key : Key) :
    Option (List (Key × ℝ)) := do
  let target_frequencies ← fetch_key_frequencies st idx scope key
  let candidates :=
    (fetch_candidates st scope target_frequencies).foldl lunion []
  let freqs ← fetch_bucket_frequencies st idx scope candidates
  let scored ← mapO
    (fun kf => (idx.get_similarity target_frequencies kf.2).map
      (fun s => (kf.1, s)))
    freqs
  pure (@List.insertionSort _ simOrder (fun p q => Classical.propDecidable _) scored)

/-- State of `GroupFeatureManager` (lines 281-283): the dict from feature
label to bound feature, as an association list in iteration order.  A bound
feature is observed by `record` only through its fallible
`feature.record(event)` call (which flattens scope/key segments and invokes
`MinHashIndex.record` against the feature's backend), so a feature is
modelled as that call: a function from the event to an `Except` outcome. -/
structure GroupFeatureManager (Event Res Err : Type) : Type where
  features : List (ℕ × (Event → Except Err Res))

/-- Embedding of `GroupFeatureManager.record` (lines 299-310): for every
feature in turn, `try` its `record` and append `(True, result)`, and on any
exception append `(False, error)` instead; the loop itself never raises.
(`Event.objects.bind_nodes` only hydrates the event object and has no
observable effect in this model.) -/
def GroupFeatureManager.record {Event Res Err : Type}
    (m : GroupFeatureManager Event Res Err) (event : Event) :
    List (Bool × (Res ⊕ Err)) :=
  m.features.map fun labelFeature =>
    match labelFeature.2 event with
    | .ok r => (true, Sum.inl r)
    | .error e => (false, Sum.inr e)

/-! ### Helper lemmas about `mapO` -/

theorem mapO_eq_some_of_forall {α β : Type} (f : α → Option β) (g : α → β)
    (l : List α) (h : ∀ x ∈ l, f x = some (g x)) : mapO f l = some (l.map g) := by
  induction l with
  | nil => rfl
  | cons x xs ih =>
    have hx := h x (by simp)
    have hxs := ih (fun y hy => h y (by simp [hy]))
    simp [mapO, hx, hxs]

theorem mapO_eq_some_iff {α β : Type} {f : α → Option β} {l : List α} {r : List β} :
    mapO f l = some r ↔ List.Forall₂ (fun a b => f a = some b) l r := by
  induction l generalizing r with
  | nil =>
    cases r <;> simp [mapO]
  | cons x xs ih =>
    cases hfx : f x with
    | none =>
      simp [mapO, hfx, List.forall₂_cons_left_iff]
    | some y =>
      simp only [mapO, hfx, Option.bind_eq_bind, Option.some_bind,
        List.forall₂_cons_left_iff]
      constructor
      · intro hr
        rcases hb : mapO f xs with _ | ys
        · rw [hb] at hr; simp at hr
        · rw [hb] at hr
          simp only [Option.some_bind] at hr
          have hr' : y :: ys = r := by simpa using hr
          exact ⟨y, ys, rfl, ih.mp hb, hr'.symm⟩
      · rintro ⟨b, r', hb, hall, rfl⟩
        have hyb : y = b := Option.some.inj hb
        subst hyb
        rw [ih.mpr hall]
        rfl

theorem mapO_length {α β : Type} {f : α → Option β} {l : List α} {r : List β}
    (h : mapO f l = some r) : r.length = l.length :=
  (List.Forall₂.length_eq (mapO_eq_some_iff.mp h)).symm

theorem mapO_isSome_of_forall {α β : Type} (f : α → Option β) (l : List α)
    (h : ∀ x ∈ l, (f x).isSome = true) : (mapO f l).isSome = true := by
  induction l with
  | nil => rfl
  | cons x xs ih =>
    rcases Option.isSome_iff_exists.mp (h x (by simp)) with ⟨y, hy⟩
    rcases Option.isSome_iff_exists.mp (ih fun z hz => h z (by simp [hz])) with ⟨ys, hys⟩
    simp [mapO, hy, hys]

/-! ### Behavior of `scale_to_total` -/

theorem list_sum_div (l : List ℚ) (t : ℚ) :
    (l.map (fun v => v / t)).sum = l.sum / t := by
  induction l with
  | nil => simp
  | cons x xs ih => simp [ih, add_div]

theorem scale_to_total_eq_map {α : Type} (l : List (α × ℚ))
    (h : ∀ p ∈ l, 0 < p.2) :
    scale_to_total l =
      some (l.map fun kv => (kv.1, kv.2 / (l.map Prod.snd).sum)) := by
  rcases hl : l with _ | ⟨p, rest⟩
  · rfl
  · have htot : 0 < (l.map Prod.snd).sum := by
      refine List.sum_pos _ (fun a ha => ?_) (by simp [hl])
      rcases List.mem_map.mp ha with ⟨q, hq, rfl⟩
      exact h q hq
    rw [← hl]
    exact mapO_eq_some_of_forall _ _ _ (fun x hx => by
      simp [htot.ne'])

/-- C10 counterexample: `scale_to_total` is not total, and a zero-total
mapping need not yield the empty distribution — on the non-empty mapping
`{e ↦ 0}` the total is zero and Python raises `ZeroDivisionError` instead of
returning `{}`. -/
theorem scale_to_total_claim_counterexample :
    ((([((0 : Enc), (0 : ℚ))]).map Prod.snd).sum = 0) ∧
    scale_to_total [((0 : Enc), (0 : ℚ))] = none ∧
    scale_to_total [((0 : Enc), (0 : ℚ))] ≠ some [] := by
  have h : scale_to_total [((0 : Enc), (0 : ℚ))] = none := by
    simp [scale_to_total, mapO]
  exact ⟨by simp, h, by rw [h]; simp⟩

/-- C10 (amended): `scale_to_total` maps the empty mapping to the empty
distribution, maps every mapping with positive total to proportions summing
to 1 over the same keys, and fails (Python `ZeroDivisionError`) on a
non-empty mapping whose counts total zero. -/
theorem scale_to_total_behavior (α : Type) (v : List (α × ℚ)) :
    (v = [] → scale_to_total v = some []) ∧
    (0 < (v.map Prod.snd).sum →
      ∃ r, scale_to_total v = some r ∧ r.map Prod.fst = v.map Prod.fst ∧
        (r.map Prod.snd).sum = 1) ∧
    (v ≠ [] → (v.map Prod.snd).sum = 0 → scale_to_total v = none) := by
  refine ⟨fun hv => by subst hv; rfl, fun hpos => ?_, fun hne hz => ?_⟩
  · have hne : (v.map Prod.snd).sum ≠ 0 := hpos.ne'
    refine ⟨v.map fun kv => (kv.1, kv.2 / (v.map Prod.snd).sum),
      mapO_eq_some_of_forall _ _ _ (fun x hx => by simp [hne]), by simp, ?_⟩
    have : ((v.map fun kv => (kv.1, kv.2 / (v.map Prod.snd).sum)).map Prod.snd) =
        (v.map Prod.snd).map (fun x => x / (v.map Prod.snd).sum) := by
      simp [Function.comp]
    rw [this, list_sum_div, div_self hne]
  · rcases v with _ | ⟨p, rest⟩
    · exact absurd rfl hne
    · have hz' : p.2 + ((rest.map Prod.snd)).sum = 0 := by simpa using hz
      simp [scale_to_total, mapO, hz']

/-- C10 witness: the amended behavior evaluated on the concrete mapping
`{0 ↦ 2, 1 ↦ 2}` with positive total. -/
theorem scale_to_total_behavior_witness :
    ∃ r, scale_to_total [((0 : Enc), (2 : ℚ)), (1, 2)] = some r ∧
      r.map Prod.fst = ([((0 : Enc), (2 : ℚ)), (1, 2)]).map Prod.fst ∧
      (r.map Prod.snd).sum = 1 :=
  (scale_to_total_behavior Enc [((0 : Enc), (2 : ℚ)), (1, 2)]).2.1 (by norm_num)

/-! ### Width selection (`get_number_formatter`) -/

theorem gnf_eq_B (size : ℕ) (h0 : 0 < size) (h1 : size ≤ 2 ^ 8 - 1) :
    get_number_formatter size = .ok PackFormat.B := by
  rw [get_number_formatter, if_pos h0, formatters,
    List.find?_cons_of_pos _ (by simpa using h1)]

theorem gnf_eq_H (size : ℕ) (h0 : 0 < size) (h1 : ¬size ≤ 2 ^ 8 - 1)
    (h2 : size ≤ 2 ^ 16 - 1) :
    get_number_formatter size = .ok PackFormat.H := by
  rw [get_number_formatter, if_pos h0, formatters,
    List.find?_cons_of_neg _ (by simpa using h1),
    List.find?_cons_of_pos _ (by simpa using h2)]

theorem gnf_eq_L (size : ℕ) (h0 : 0 < size) (h1 : ¬size ≤ 2 ^ 8 - 1)
    (h2 : ¬size ≤ 2 ^ 16 - 1) (h3 : size ≤ 2 ^ 32 - 1) :
    get_number_formatter size = .ok PackFormat.L := by
  rw [get_number_formatter, if_pos h0, formatters,
    List.find?_cons_of_neg _ (by simpa using h1),
    List.find?_cons_of_neg _ (by simpa using h2),
    List.find?_cons_of_pos _ (by simpa using h3)]

theorem gnf_eq_Q (size : ℕ) (h0 : 0 < size) (h1 : ¬size ≤ 2 ^ 8 - 1)
    (h2 : ¬size ≤ 2 ^ 16 - 1) (h3 : ¬size ≤ 2 ^ 32 - 1)
    (h4 : size ≤ 2 ^ 64 - 1) :
    get_number_formatter size = .ok PackFormat.Q := by
  rw [get_number_formatter, if_pos h0, formatters,
    List.find?_cons_of_neg _ (by simpa using h1),
    List.find?_cons_of_neg _ (by simpa using h2),
    List.find?_cons_of_neg _ (by simpa using h3),
    List.find?_cons_of_pos _ (by simpa using h4)]

theorem gnf_eq_err (size : ℕ) (h0 : 0 < size) (h4 : ¬size ≤ 2 ^ 64 - 1) :
    get_number_formatter size = .error .valueError := by
  have h1 : ¬size ≤ 2 ^ 8 - 1 := by omega
  have h2 : ¬size ≤ 2 ^ 16 - 1 := by omega
  have h3 : ¬size ≤ 2 ^ 32 - 1 := by omega
  rw [get_number_formatter, if_pos h0, formatters,
    List.find?_cons_of_neg _ (by simpa using h1),
    List.find?_cons_of_neg _ (by simpa using h2),
    List.find?_cons_of_neg _ (by simpa using h3),
    List.find?_cons_of_neg _ (by simpa using h4)]
  rfl

theorem gnf_pos_of_ok (size : ℕ) (f : PackFormat)
    (h : get_number_formatter size = .ok f) : 0 < size := by
  by_cases h0 : 0 < size
  · exact h0
  · simp [get_number_formatter, h0] at h

theorem get_number_formatter_narrowest (size : ℕ) (f : PackFormat)
    (h : get_number_formatter size = .ok f) :
    size ≤ f.maxValue ∧
      ∀ mg ∈ formatters, size ≤ mg.1 → f.width ≤ mg.2.width := by
  have h0 : 0 < size := gnf_pos_of_ok size f h
  have hnil : ∀ mg ∈ ([] : List (ℕ × PackFormat)), size ≤ mg.1 → f.width ≤ mg.2.width :=
    fun mg hmg => absurd hmg (List.not_mem_nil mg)
  by_cases h1 : size ≤ 2 ^ 8 - 1
  · have hf : f = PackFormat.B :=
      (Except.ok.inj ((gnf_eq_B size h0 h1).symm.trans h)).symm
    subst hf
    refine ⟨by simpa [PackFormat.maxValue] using h1, ?_⟩
    simp only [formatters, List.forall_mem_cons, PackFormat.width]
    exact ⟨fun _ => by omega, fun _ => by omega, fun _ => by omega,
      fun _ => by omega, hnil⟩
  by_cases h2 : size ≤ 2 ^ 16 - 1
  · have hf : f = PackFormat.H :=
      (Except.ok.inj ((gnf_eq_H size h0 h1 h2).symm.trans h)).symm
    subst hf
    refine ⟨by simpa [PackFormat.maxValue] using h2, ?_⟩
    simp only [formatters, List.forall_mem_cons, PackFormat.width]
    exact ⟨fun hc => absurd hc (by simpa using h1), fun _ => by omega,
      fun _ => by omega, fun _ => by omega, hnil⟩
  by_cases h3 : size ≤ 2 ^ 32 - 1
  · have hf : f = PackFormat.L :=
      (Except.ok.inj ((gnf_eq_L size h0 h1 h2 h3).symm.trans h)).symm
    subst hf
    refine ⟨by simpa [PackFormat.maxValue] using h3, ?_⟩
    simp only [formatters, List.forall_mem_cons, PackFormat.width]
    exact ⟨fun hc => absurd hc (by simpa using h1),
      fun hc => absurd hc (by simpa using h2), fun _ => by omega,
      fun _ => by omega, hnil⟩
  by_cases h4 : size ≤ 2 ^ 64 - 1
  · have hf : f = PackFormat.Q :=
      (Except.ok.inj ((gnf_eq_Q size h0 h1 h2 h3 h4).symm.trans h)).symm
    subst hf
    refine ⟨by simpa [PackFormat.maxValue] using h4, ?_⟩
    simp only [formatters, List.forall_mem_cons, PackFormat.width]
    exact ⟨fun hc => absurd hc (by simpa using h1),
      fun hc => absurd hc (by simpa using h2),
      fun hc => absurd hc (by simpa using h3), fun _ => by omega, hnil⟩
  · rw [gnf_eq_err size h0 h4] at h
    exact absurd h (by simp)

theorem get_number_formatter_ok_of_le (size : ℕ) (h0 : 0 < size)
    (hle : size ≤ 2 ^ 64 - 1) : ∃ f, get_number_formatter size = .ok f := by
  by_cases h1 : size ≤ 2 ^ 8 - 1
  · exact ⟨PackFormat.B, gnf_eq_B size h0 h1⟩
  by_cases h2 : size ≤ 2 ^ 16 - 1
  · exact ⟨PackFormat.H, gnf_eq_H size h0 h1 h2⟩
  by_cases h3 : size ≤ 2 ^ 32 - 1
  · exact ⟨PackFormat.L, gnf_eq_L size h0 h1 h2 h3⟩
  · exact ⟨PackFormat.Q, gnf_eq_Q size h0 h1 h2 h3 hle⟩

theorem get_number_formatter_err_of_gt (size : ℕ) (h0 : 0 < size)
    (hgt : 2 ^ 64 - 1 < size) :
    get_number_formatter size = .error .valueError :=
  gnf_eq_err size h0 (by omega)

/-- C2 counterexample: the claim's rule "smallest width whose maximum
representable value is ≥ rows − 1" is violated at `rows = 256`: the 1-byte
maximum 255 covers `256 - 1`, and 1 byte is narrower than 2, yet
`get_number_formatter 256` returns the 2-byte packer (the code compares the
maximum against `rows` itself, not `rows - 1`). -/
theorem get_number_formatter_claim_counterexample :
    256 - 1 ≤ PackFormat.B.maxValue ∧
    PackFormat.B.width < PackFormat.H.width ∧
    (2 ^ 8 - 1, PackFormat.B) ∈ formatters ∧
    get_number_formatter 256 = .ok PackFormat.H ∧
    get_number_formatter 256 ≠ .ok PackFormat.B := by
  have hH : get_number_formatter 256 = .ok PackFormat.H :=
    gnf_eq_H 256 (by norm_num) (by norm_num) (by norm_num)
  exact ⟨by decide, by decide, by simp [formatters], hH, by rw [hH]; simp⟩

/-- C2 (amended): for every `rows ≥ 1`, `get_number_formatter` returns the
smallest of the 1-, 2-, 4- or 8-byte unsigned big-endian encodings whose
maximum representable value is ≥ `rows` (not `rows - 1`), and it fails with
`ValueError` exactly when `rows` exceeds the 8-byte maximum `2^64 - 1`. -/
theorem get_number_formatter_selects_smallest (rows : ℕ) (h0 : 1 ≤ rows) :
    (rows ≤ 2 ^ 64 - 1 →
      ∃ f, get_number_formatter rows = .ok f ∧ rows ≤ f.maxValue ∧
        ∀ mg ∈ formatters, rows ≤ mg.1 → f.width ≤ mg.2.width) ∧
    (2 ^ 64 - 1 < rows →
      get_number_formatter rows = .error .valueError) := by
  constructor
  · intro hle
    rcases get_number_formatter_ok_of_le rows h0 hle with ⟨f, hf⟩
    rcases get_number_formatter_narrowest rows f hf with ⟨hmax, hmin⟩
    exact ⟨f, hf, hmax, hmin⟩
  · exact get_number_formatter_err_of_gt rows h0

/-- C2 witness: the amended selection rule evaluated at `rows = 300`
(2-byte encoding) and at `rows = 2^64` (failure). -/
theorem get_number_formatter_selects_smallest_witness :
    (∃ f, get_number_formatter 300 = .ok f ∧ 300 ≤ f.maxValue ∧
      ∀ mg ∈ formatters, 300 ≤ mg.1 → f.width ≤ mg.2.width) ∧
    get_number_formatter (2 ^ 64) = .error .valueError :=
  ⟨(get_number_formatter_selects_smallest 300 (by decide)).1 (by decide),
   (get_number_formatter_selects_smallest (2 ^ 64) (by norm_num)).2 (by norm_num)⟩

/-- C3: `get_number_formatter` selects the narrowest width covering `rows`
(maximum ≥ `rows`); in particular `rows = 256` selects the 2-byte encoding
since the 1-byte maximum 255 < 256, and `rows = 65536` selects the 4-byte
encoding (width ≥ 4). -/
theorem get_number_formatter_narrowest_covering :
    get_number_formatter 256 = .ok PackFormat.H ∧
    PackFormat.B.maxValue = 255 ∧
    get_number_formatter 65536 = .ok PackFormat.L ∧
    4 ≤ PackFormat.L.width ∧
    ∀ rows f, get_number_formatter rows = .ok f →
      rows ≤ f.maxValue ∧ ∀ mg ∈ formatters, rows ≤ mg.1 → f.width ≤ mg.2.width :=
  ⟨gnf_eq_H 256 (by norm_num) (by norm_num) (by norm_num),
   by decide,
   gnf_eq_L 65536 (by norm_num) (by norm_num) (by norm_num) (by norm_num),
   by decide,
   fun rows f h => get_number_formatter_narrowest rows f h⟩

/-- C3 witness: the narrowest-width property evaluated at `rows = 256`. -/
theorem get_number_formatter_narrowest_covering_witness :
    256 ≤ PackFormat.H.maxValue ∧
    ∀ mg ∈ formatters, 256 ≤ mg.1 → PackFormat.H.width ≤ mg.2.width :=
  get_number_formatter_narrowest_covering.2.2.2.2 256 PackFormat.H
    (gnf_eq_H 256 (by norm_num) (by norm_num) (by norm_num))

/-! ### Aggregator failure isolation (`GroupFeatureManager.record`) -/

/-- C9: `GroupFeatureManager.record` returns exactly one outcome per bound
feature; the i-th outcome is `(True, result)` when the i-th feature's record
succeeds and `(False, error)` when it raises, each feature being attempted
independently of the others' outcomes, and the loop itself is total (no
exception propagates out of `record`). -/
theorem record_isolates_failures (Event Res Err : Type)
    (m : GroupFeatureManager Event Res Err) (event : Event) :
    (m.record event).length = m.features.length ∧
    ∀ i (h1 : i < (m.record event).length) (h2 : i < m.features.length),
      (∀ r, ((m.features.get ⟨i, h2⟩).2 event = .ok r) →
        (m.record event).get ⟨i, h1⟩ = (true, Sum.inl r)) ∧
      (∀ e, ((m.features.get ⟨i, h2⟩).2 event = .error e) →
        (m.record event).get ⟨i, h1⟩ = (false, Sum.inr e)) := by
  refine ⟨by simp [GroupFeatureManager.record], ?_⟩
  intro i h1 h2
  constructor
  · intro r hr
    simp [GroupFeatureManager.record, List.get_eq_getElem, List.getElem_map] at h1 ⊢
    rw [List.get_eq_getElem] at hr
    rw [hr]
  · intro e he
    simp [GroupFeatureManager.record, List.get_eq_getElem, List.getElem_map] at h1 ⊢
    rw [List.get_eq_getElem] at he
    rw [he]

/-- C9 witness: a manager with one succeeding and one failing feature yields
exactly the two outcomes `(True, 7)` and `(False, 3)`. -/
theorem record_isolates_failures_witness :
    GroupFeatureManager.record
      (⟨[(0, fun _ => Except.ok 7), (1, fun _ => Except.error 3)]⟩ :
        GroupFeatureManager ℕ ℕ ℕ) 0 =
      [(true, Sum.inl 7), (false, Sum.inr 3)] := by
  have h := record_isolates_failures ℕ ℕ ℕ
    ⟨[(0, fun _ => Except.ok 7), (1, fun _ => Except.error 3)]⟩ 0
  have hlen : (GroupFeatureManager.record
      (⟨[(0, fun _ => Except.ok 7), (1, fun _ => Except.error 3)]⟩ :
        GroupFeatureManager ℕ ℕ ℕ) 0).length = 2 := h.1
  apply List.ext_get (by simpa using hlen)
  intro i hi hi2
  simp only [List.length_cons, List.length_nil] at hi2
  rcases i with _ | _ | i
  · rw [(h.2 0 hi (by simp)).1 7 rfl]; rfl
  · rw [(h.2 1 hi (by simp)).2 3 rfl]; rfl
  · omega

/-! ### Distance and similarity -/

theorem get_distance_self {α : Type} [DecidableEq α] (d : List (α × ℚ)) :
    get_distance d d = 0 := by
  have hz : (((d.map Prod.fst ++ d.map Prod.fst).dedup).map
      (fun k => (dictGet d k - dictGet d k) ^ 2)).sum = (0 : ℚ) := by
    rw [List.sum_eq_zero]
    intro x hx
    rcases List.mem_map.mp hx with ⟨k, hk, rfl⟩
    simp
  rw [get_distance, hz]
  simp

theorem get_distance_comm {α : Type} [DecidableEq α] (a b : List (α × ℚ)) :
    get_distance a b = get_distance b a := by
  have hperm : List.Perm ((a.map Prod.fst ++ b.map Prod.fst).dedup)
      ((b.map Prod.fst ++ a.map Prod.fst).dedup) :=
    (List.perm_ext_iff_of_nodup (List.nodup_dedup _) (List.nodup_dedup _)).mpr
      (fun x => by simp [List.mem_dedup, List.mem_append, or_comm])
  have hfun : (fun k => (dictGet a k - dictGet b k) ^ 2) =
      (fun k => (dictGet b k - dictGet a k) ^ 2) := by
    funext k; ring
  rw [get_distance, get_distance, hfun]
  exact congrArg Real.sqrt (congrArg Rat.cast ((hperm.map _).sum_eq))

theorem dist_zip_self_sum (d : List FreqDist) :
    (((d.zip d).map fun lr => get_distance lr.1 lr.2)).sum = 0 := by
  induction d with
  | nil => simp
  | cons x xs ih => simp [get_distance_self, ih]

theorem dist_zip_comm (a b : List FreqDist) :
    ((a.zip b).map fun lr => get_distance lr.1 lr.2) =
    ((b.zip a).map fun lr => get_distance lr.1 lr.2) := by
  induction a generalizing b with
  | nil => cases b <;> simp
  | cons x xs ih =>
    cases b with
    | nil => simp
    | cons y ys => simp [ih ys, get_distance_comm x y]

/-- Index with zero bands, as constructed by `MinHashIndex(cluster, 1, 0, 0)`
(a configuration the constructor accepts). -/
def idxZeroBands : MinHashIndex Unit :=
  (MinHashIndex.init () 1 0 0).getD ⟨(), 1, [], PackFormat.B⟩

/-- Index with one band and one bucket over two rows, as constructed by
`MinHashIndex(cluster, 2, 1, 1)`. -/
def idxOneBand : MinHashIndex Unit :=
  (MinHashIndex.init () 2 1 1).getD ⟨(), 1, [], PackFormat.B⟩

/-- C6 counterexample: on the constructible zero-band index, the only
distribution sequence whose length matches the number of bands is the empty
one, and there `get_similarity` divides by `len(target) = 0`
(`ZeroDivisionError`) instead of returning 1.0. -/
theorem get_similarity_self_claim_counterexample :
    MinHashIndex.init () 1 0 0 = some idxZeroBands ∧
    ([] : List FreqDist).length = idxZeroBands.bands.length ∧
    idxZeroBands.get_similarity [] [] = none ∧
    idxZeroBands.get_similarity [] [] ≠ some 1 := by
  have h2 : idxZeroBands.get_similarity [] [] = none := rfl
  exact ⟨rfl, rfl, h2, by rw [h2]; simp⟩

/-- C6 (amended): for every index with at least one band and every sequence
of per-band distributions whose length equals the number of bands,
`get_similarity` of the sequence against itself is exactly 1 (each per-band
distance of a distribution against itself is zero). -/
theorem get_similarity_self_eq_one (C : Type) (idx : MinHashIndex C)
    (d : List FreqDist) (hlen : d.length = idx.bands.length)
    (hb : 1 ≤ idx.bands.length) :
    idx.get_similarity d d = some 1 := by
  rw [MinHashIndex.get_similarity, if_pos ⟨rfl, hlen⟩, if_neg (by omega)]
  rw [dist_zip_self_sum]
  norm_num

/-- C6 witness: self-similarity evaluated on a concrete one-band index and
one-element distribution. -/
theorem get_similarity_self_eq_one_witness :
    idxOneBand.get_similarity [[((5 : Enc), (1 : ℚ))]]
      [[((5 : Enc), (1 : ℚ))]] = some 1 :=
  get_similarity_self_eq_one Unit idxOneBand [[((5 : Enc), (1 : ℚ))]]
    (by decide) (by decide)

theorem get_similarity_comm (C : Type) (idx : MinHashIndex C)
    (a b : List FreqDist) : idx.get_similarity a b = idx.get_similarity b a := by
  by_cases hab : a.length = b.length
  · rw [MinHashIndex.get_similarity, MinHashIndex.get_similarity,
      dist_zip_comm a b, hab]
  · rw [MinHashIndex.get_similarity, MinHashIndex.get_similarity,
      if_neg (fun h => hab h.1), if_neg (fun h => hab h.1.symm)]

/-- C7: `get_similarity` is symmetric on all pairs of per-band distribution
sequences of the index's band count. -/
theorem similarity_symmetric (C : Type) (idx : MinHashIndex C)
    (a b : List FreqDist) (ha : a.length = idx.bands.length)
    (hb : b.length = idx.bands.length) :
    idx.get_similarity a b = idx.get_similarity b a :=
  get_similarity_comm C idx a b

/-- C7 witness: symmetry evaluated on a concrete one-band index and two
concrete distributions. -/
theorem similarity_symmetric_witness :
    idxOneBand.get_similarity [[((5 : Enc), (1 : ℚ))]] [[((6 : Enc), (1 : ℚ))]] =
    idxOneBand.get_similarity [[((6 : Enc), (1 : ℚ))]] [[((5 : Enc), (1 : ℚ))]] :=
  similarity_symmetric Unit idxOneBand _ _ (by decide) (by decide)

/-! ### Permutation table and signature generation -/

theorem mkBuckets_length (rows g n : ℕ) : (mkBuckets rows g n).1.length = n := by
  induction n generalizing g with
  | zero => rfl
  | succ n ih => simp [mkBuckets, ih]

theorem mkBuckets_mem (rows : ℕ) (perm : List ℕ) :
    ∀ (g n : ℕ), perm ∈ (mkBuckets rows g n).1 → ∀ a, a ∈ perm ↔ a < rows := by
  intro g n
  induction n generalizing g with
  | zero => intro h; simp [mkBuckets] at h
  | succ n ih =>
    intro h
    simp only [mkBuckets, List.mem_cons] at h
    rcases h with rfl | h
    · intro a
      rw [shuffle]
      simp [List.mem_rotate, List.mem_range]
    · exact ih _ h

theorem mkBands_length (rows buckets g n : ℕ) :
    (mkBands rows buckets g n).1.length = n := by
  induction n generalizing g with
  | zero => rfl
  | succ n ih => simp [mkBands, ih]

theorem mkBands_mem (rows buckets : ℕ) (band : List (List ℕ)) :
    ∀ (g n : ℕ), band ∈ (mkBands rows buckets g n).1 →
      band.length = buckets ∧ ∀ perm ∈ band, ∀ a, a ∈ perm ↔ a < rows := by
  intro g n
  induction n generalizing g with
  | zero => intro h; simp [mkBands] at h
  | succ n ih =>
    intro h
    simp only [mkBands, List.mem_cons] at h
    rcases h with rfl | h
    · exact ⟨mkBuckets_length rows g buckets,
        fun perm hp => mkBuckets_mem rows perm g buckets hp⟩
    · exact ih _ h

theorem init_fields {C : Type} (c : C) (rows bands buckets : ℕ)
    (idx : MinHashIndex C)
    (h : MinHashIndex.init c rows bands buckets = some idx) :
    idx.rows = rows ∧ idx.bands = (mkBands rows buckets 0 bands).1 ∧
      0 < rows := by
  rcases hg : get_number_formatter rows with f | e
  · rw [MinHashIndex.init, hg] at h
    cases h
  · rw [MinHashIndex.init, hg] at h
    cases h
    exact ⟨rfl, rfl, gnf_pos_of_ok rows e hg⟩

theorem get_signature_eq {C : Type} (idx : MinHashIndex C) (value : List Token) :
    idx.get_signature value =
      (mapO (fun t => if idx.rows = 0 then none
          else some (pythonHash t % idx.rows)) value).bind
        (fun cols => mapO (fun band => mapO (fun permutation =>
          permutation.findIdx? (fun a => decide (a ∈ cols.dedup))) band)
          idx.bands) := rfl

theorem findIdx?_isSome_of_mem {p : ℕ → Bool} {l : List ℕ} {a : ℕ}
    (ha : a ∈ l) (hp : p a = true) : (l.findIdx? p).isSome = true := by
  rcases h : l.findIdx? p with _ | i
  · rw [List.findIdx?_eq_none_iff] at h
    rw [h a ha] at hp
    cases hp
  · rfl

/-- C4: the permutation table is a pure function of `(rows, bands, buckets)`
under the fixed seed, so `get_signature` is deterministic: two index
instances constructed with the same configuration (over arbitrary, possibly
different cluster handles) produce identical signatures for every
characteristic set; on a single (immutable) instance, two calls trivially
agree as well. -/
theorem get_signature_deterministic (C1v C2v : Type) (c1 : C1v) (c2 : C2v)
    (rows bands buckets : ℕ) (i1 : MinHashIndex C1v) (i2 : MinHashIndex C2v)
    (h1 : MinHashIndex.init c1 rows bands buckets = some i1)
    (h2 : MinHashIndex.init c2 rows bands buckets = some i2)
    (value : List Token) :
    i1.get_signature value = i2.get_signature value := by
  rcases init_fields c1 rows bands buckets i1 h1 with ⟨hr1, hb1, _⟩
  rcases init_fields c2 rows bands buckets i2 h2 with ⟨hr2, hb2, _⟩
  rw [get_signature_eq, get_signature_eq, hr1, hr2, hb1, hb2]

/-- Index instances with identical configuration `(4, 2, 2)` but distinct
cluster handles. -/
def idxW4a : MinHashIndex ℕ :=
  (MinHashIndex.init 0 4 2 2).getD ⟨0, 1, [], PackFormat.B⟩

/-- Second instance of the `(4, 2, 2)` configuration. -/
def idxW4b : MinHashIndex ℕ :=
  (MinHashIndex.init 1 4 2 2).getD ⟨1, 1, [], PackFormat.B⟩

/-- C4 witness: determinism evaluated on two concrete instances of the same
configuration. -/
theorem get_signature_deterministic_witness :
    idxW4a.get_signature [3] = idxW4b.get_signature [3] :=
  get_signature_deterministic ℕ ℕ 0 1 4 2 2 idxW4a idxW4b rfl rfl [3]

/-- C5: on every successfully constructed index with at least one band and
at least one bucket per band, `get_signature` fails (`StopIteration` from
the exhausted permutation scan) on the empty characteristic set, and
succeeds on every non-empty characteristic set, since every permutation of
`range(rows)` contains every occupied column. -/
theorem get_signature_empty_vs_nonempty (C : Type) (c : C)
    (rows bands buckets : ℕ) (idx : MinHashIndex C)
    (h : MinHashIndex.init c rows bands buckets = some idx)
    (hbands : 1 ≤ bands) (hbuckets : 1 ≤ buckets) :
    idx.get_signature [] = none ∧
    ∀ value : List Token, value ≠ [] →
      (idx.get_signature value).isSome = true := by
  rcases init_fields c rows bands buckets idx h with ⟨hr, hb, hpos⟩
  have hlen : idx.bands.length = bands := by rw [hb, mkBands_length]
  have hbandmem : ∀ band ∈ idx.bands,
      band.length = buckets ∧ ∀ perm ∈ band, ∀ a, a ∈ perm ↔ a < rows := by
    intro band hband
    rw [hb] at hband
    exact mkBands_mem rows buckets band 0 bands hband
  constructor
  · rcases hbl : idx.bands with _ | ⟨b0, rest⟩
    · rw [hbl] at hlen
      simp at hlen
      omega
    · have hb0 : b0 ∈ idx.bands := by rw [hbl]; exact List.mem_cons_self b0 rest
      rcases hbandmem b0 hb0 with ⟨hb0len, _⟩
      rcases hp0 : b0 with _ | ⟨p0, prest⟩
      · rw [hp0] at hb0len
        simp at hb0len
        omega
      · have hfi : (p0.findIdx? fun a => false) = none :=
          List.findIdx?_eq_none_iff.mpr (fun x hx => rfl)
        rw [get_signature_eq]
        simp only [mapO, Option.some_bind, hbl, hp0]
        simp [mapO, hfi]
  · intro value hne
    have hcols : mapO (fun t => if idx.rows = 0 then none
        else some (pythonHash t % idx.rows)) value =
        some (value.map fun t => pythonHash t % idx.rows) :=
      mapO_eq_some_of_forall _ _ value
        (fun x hx => by rw [if_neg (by omega : ¬idx.rows = 0)])
    rw [get_signature_eq, hcols, Option.some_bind]
    apply mapO_isSome_of_forall
    intro band hband
    apply mapO_isSome_of_forall
    intro perm hperm
    rcases value with _ | ⟨t, ts⟩
    · exact absurd rfl hne
    · have hc0mem : pythonHash t % idx.rows ∈
          ((t :: ts).map fun s => pythonHash s % idx.rows).dedup := by
        rw [List.mem_dedup]
        exact List.mem_map_of_mem _ (List.mem_cons_self t ts)
      have hc0lt : pythonHash t % idx.rows < rows := by
        rw [hr] at *
        exact Nat.mod_lt _ hpos
      rcases hbandmem band hband with ⟨_, hpermspec⟩
      exact findIdx?_isSome_of_mem
        ((hpermspec perm hperm _).mpr hc0lt) (decide_eq_true hc0mem)

/-- C5 witness: the empty-input failure and non-empty success evaluated on
the concrete `(2, 1, 1)` index. -/
theorem get_signature_empty_vs_nonempty_witness :
    idxOneBand.get_signature [] = none ∧
    (idxOneBand.get_signature [7]).isSome = true :=
  ⟨(get_signature_empty_vs_nonempty Unit () 2 1 1 idxOneBand rfl
      (by decide) (by decide)).1,
   (get_signature_empty_vs_nonempty Unit () 2 1 1 idxOneBand rfl
      (by decide) (by decide)).2 [7] (by simp)⟩

/-! ### Set unions, well-formed storage, and query structure -/

theorem mem_lunion {a b : List Key} {x : Key} :
    x ∈ lunion a b ↔ x ∈ a ∨ x ∈ b := by
  simp only [lunion, List.mem_append, List.mem_filter, decide_eq_true_eq]
  constructor
  · rintro (h | ⟨h, _⟩)
    · exact Or.inl h
    · exact Or.inr h
  · rintro (h | h)
    · exact Or.inl h
    · by_cases hxa : x ∈ a
      · exact Or.inl hxa
      · exact Or.inr ⟨h, hxa⟩

theorem nodup_lunion {a b : List Key} (ha : a.Nodup) (hb : b.Nodup) :
    (lunion a b).Nodup := by
  rw [lunion]
  refine List.Nodup.append ha (hb.filter _) ?_
  intro x hxa hxf
  rcases List.mem_filter.mp hxf with ⟨_, hdec⟩
  exact (of_decide_eq_true hdec) hxa

theorem mem_foldl_lunion (ls : List (List Key)) :
    ∀ (a : List Key) (x : Key),
      x ∈ ls.foldl lunion a ↔ x ∈ a ∨ ∃ m ∈ ls, x ∈ m := by
  induction ls with
  | nil => simp
  | cons l ls ih =>
    intro a x
    simp only [List.foldl_cons, ih, mem_lunion, List.mem_cons]
    constructor
    · rintro ((h | h) | ⟨m, hm, hx⟩)
      · exact Or.inl h
      · exact Or.inr ⟨l, Or.inl rfl, h⟩
      · exact Or.inr ⟨m, Or.inr hm, hx⟩
    · rintro (h | ⟨m, (rfl | hm), hx⟩)
      · exact Or.inl (Or.inl h)
      · exact Or.inl (Or.inr hx)
      · exact Or.inr ⟨m, hm, hx⟩

theorem nodup_foldl_lunion (ls : List (List Key)) :
    ∀ a : List Key, a.Nodup → (∀ m ∈ ls, m.Nodup) →
      (ls.foldl lunion a).Nodup := by
  induction ls with
  | nil => intro a h _; exact h
  | cons l ls ih =>
    intro a ha hall
    simp only [List.foldl_cons]
    exact ih _ (nodup_lunion ha (hall l (by simp)))
      (fun m hm => hall m (by simp [hm]))

instance : IsTotal (Key × ℝ) simOrder :=
  ⟨fun p q => by
    rcases lt_trichotomy p.2 q.2 with h | h | h
    · exact Or.inr (Or.inl h)
    · rcases le_total p.1 q.1 with hk | hk
      · exact Or.inl (Or.inr ⟨h, hk⟩)
      · exact Or.inr (Or.inr ⟨h.symm, hk⟩)
    · exact Or.inl (Or.inl h)⟩

instance : IsTrans (Key × ℝ) simOrder :=
  ⟨by
    rintro p q r (h1 | ⟨he1, hk1⟩) (h2 | ⟨he2, hk2⟩)
    · exact Or.inl (h2.trans h1)
    · exact Or.inl (he2 ▸ h1)
    · exact Or.inl (by rw [he1]; exact h2)
    · exact Or.inr ⟨he1.trans he2, hk1.trans hk2⟩⟩

/-- Storage states reachable through `record`: every stored frequency count
is positive (`zincrby` only ever adds 1), and every frequency entry of a key
is matched by that key's membership in the corresponding bucket set
(`record` writes both for each band). -/
def Storage.WellFormed (st : Storage) : Prop :=
  ∀ scope band k,
    (∀ p ∈ st.frequency scope band k, 0 < p.2) ∧
    (∀ p ∈ st.frequency scope band k, k ∈ st.membership scope band p.1)

/-- The normalized frequency distribution of one band of a key, as
`scale_to_total` produces it on a well-formed storage. -/
def scaledDist (st : Storage) (scope : Scope) (band : ℕ) (k : Key) : FreqDist :=
  (st.frequency scope band k).map fun kv =>
    (kv.1, kv.2 / ((st.frequency scope band k).map Prod.snd).sum)

/-- The per-band normalized frequency vectors of a key. -/
def scaledFreqs (st : Storage) (n : ℕ) (scope : Scope) (k : Key) :
    List FreqDist :=
  (List.range n).map fun band => scaledDist st scope band k

theorem scaledFreqs_length (st : Storage) (n : ℕ) (scope : Scope) (k : Key) :
    (scaledFreqs st n scope k).length = n := by
  simp [scaledFreqs]

theorem fetch_key_frequencies_eq {C : Type} (st : Storage)
    (idx : MinHashIndex C) (scope : Scope) (k : Key)
    (hwf : st.WellFormed) :
    fetch_key_frequencies st idx scope k =
      some (scaledFreqs st idx.bands.length scope k) :=
  mapO_eq_some_of_forall _ _ _ (fun band _ => by
    rw [scale_to_total_eq_map _ (fun p hp => (hwf scope band k).1 p hp)]
    rfl)

theorem query_eq {C : Type} (st : Storage) (idx : MinHashIndex C)
    (scope : Scope) (key : Key) :
    MinHashIndex.query st idx scope key =
      (fetch_key_frequencies st idx scope key).bind
        (fun target_frequencies =>
          (fetch_bucket_frequencies st idx scope
            ((fetch_candidates st scope target_frequencies).foldl lunion [])).bind
          (fun freqs =>
            (mapO (fun kf => (idx.get_similarity target_frequencies kf.2).map
              (fun s => (kf.1, s))) freqs).bind
            (fun scored => some (@List.insertionSort _ simOrder
              (fun p q => Classical.propDecidable _) scored)))) := rfl

/-- Numerator-level similarity score, the value wrapped by `get_similarity`
when its guards pass. -/
noncomputable def simRaw (target other : List FreqDist) : ℝ :=
  1 - ((target.zip other).map fun lr => get_distance lr.1 lr.2).sum /
    Real.sqrt 2 / (target.length : ℝ)

theorem get_similarity_eq_simRaw {C : Type} (idx : MinHashIndex C)
    (a b : List FreqDist) (hlen : a.length = b.length)
    (hbl : a.length = idx.bands.length) (hnz : a.length ≠ 0) :
    idx.get_similarity a b = some (simRaw a b) := by
  rw [MinHashIndex.get_similarity, if_pos ⟨hlen, hbl⟩, if_neg hnz]
  rfl

theorem simRaw_self (d : List FreqDist) : simRaw d d = 1 := by
  simp [simRaw, dist_zip_self_sum]

theorem mapO_map_fst {α β γ : Type} (g : α × β → Option γ)
    (l : List (α × β)) (r : List (α × γ))
    (h : mapO (fun kf => (g kf).map (fun s => (kf.1, s))) l = some r) :
    r.map Prod.fst = l.map Prod.fst := by
  have h2 := mapO_eq_some_iff.mp h
  clear h
  induction h2 with
  | nil => rfl
  | cons ha _ ih =>
    rcases Option.map_eq_some'.mp ha with ⟨s, _, rfl⟩
    simp only [List.map_cons, ih]

theorem mapO_pair_fst {α β : Type} (g : α → Option β) (keys : List α)
    (r : List (α × β))
    (h : mapO (fun k => (g k).map (fun v => (k, v))) keys = some r) :
    r.map Prod.fst = keys := by
  have h2 := mapO_eq_some_iff.mp h
  clear h
  induction h2 with
  | nil => rfl
  | cons ha _ ih =>
    rcases Option.map_eq_some'.mp ha with ⟨s, _, rfl⟩
    simp only [List.map_cons, ih]

theorem fetch_candidates_nodup (st : Storage) (scope : Scope)
    (sig : List FreqDist) :
    ∀ bandlist ∈ fetch_candidates st scope sig, bandlist.Nodup := by
  intro bl hbl
  rcases List.mem_map.mp hbl with ⟨bb, _, rfl⟩
  rw [← List.foldl_map]
  refine nodup_foldl_lunion _ _ List.nodup_nil ?_
  intro m hm
  rcases List.mem_map.mp hm with ⟨e, _, rfl⟩
  exact List.nodup_dedup _

theorem pairwise_and_of {α : Type} {R S : α → α → Prop} :
    ∀ {l : List α}, l.Pairwise R → l.Pairwise S →
      l.Pairwise (fun a b => R a b ∧ S a b)
  | [], _, _ => List.Pairwise.nil
  | x :: xs, hR, hS => by
    rcases List.pairwise_cons.mp hR with ⟨hRx, hRxs⟩
    rcases List.pairwise_cons.mp hS with ⟨hSx, hSxs⟩
    exact List.pairwise_cons.mpr ⟨fun y hy => ⟨hRx y hy, hSx y hy⟩,
      pairwise_and_of hRxs hSxs⟩

/-- The empty storage: no membership facts, no frequency facts. -/
def stEmpty : Storage := ⟨fun _ _ _ => [], fun _ _ _ => []⟩

/-- C8: whenever `query` returns a result list, adjacent entries are ordered
by strictly descending similarity or, at equal similarity, strictly
ascending key — the sort key is `(similarity * -1, key)` and the result
keys (drawn from the candidate set) are pairwise distinct. -/
theorem query_sorted_descending (C : Type) (st : Storage)
    (idx : MinHashIndex C) (scope : Scope) (key : Key) (l : List (Key × ℝ))
    (h : MinHashIndex.query st idx scope key = some l) :
    l.Chain' (fun p q => q.2 < p.2 ∨ (p.2 = q.2 ∧ p.1 < q.1)) := by
  rw [query_eq] at h
  rcases htf : fetch_key_frequencies st idx scope key with _ | tf
  · rw [htf] at h; simp at h
  rw [htf, Option.some_bind] at h
  rcases hfr : fetch_bucket_frequencies st idx scope
      ((fetch_candidates st scope tf).foldl lunion []) with _ | freqs
  · rw [hfr] at h; simp at h
  rw [hfr, Option.some_bind] at h
  rcases hsc : mapO (fun kf => (idx.get_similarity tf kf.2).map
      (fun s => (kf.1, s))) freqs with _ | scored
  · rw [hsc] at h; simp at h
  rw [hsc, Option.some_bind] at h
  have hl : l = @List.insertionSort _ simOrder
      (fun p q => Classical.propDecidable _) scored := (Option.some.inj h).symm
  have hsorted : List.Sorted simOrder l := by
    rw [hl]
    exact @List.sorted_insertionSort _ simOrder
      (fun p q => Classical.propDecidable _) _ _ scored
  have hfst1 : scored.map Prod.fst = freqs.map Prod.fst :=
    mapO_map_fst _ _ _ hsc
  have hfst2 : freqs.map Prod.fst =
      (fetch_candidates st scope tf).foldl lunion [] :=
    mapO_pair_fst _ _ _ hfr
  have hcandnd : ((fetch_candidates st scope tf).foldl lunion []).Nodup :=
    nodup_foldl_lunion _ _ List.nodup_nil (fetch_candidates_nodup st scope tf)
  have hscnd : (scored.map Prod.fst).Nodup := by
    rw [hfst1, hfst2]; exact hcandnd
  have hperm : List.Perm l scored := by
    rw [hl]
    exact @List.perm_insertionSort _ simOrder
      (fun p q => Classical.propDecidable _) scored
  have hlnd : (l.map Prod.fst).Nodup :=
    ((hperm.map Prod.fst).nodup_iff).mpr hscnd
  have hpne : l.Pairwise (fun p q => p.1 ≠ q.1) := List.pairwise_map.mp hlnd
  have hcomb := pairwise_and_of hsorted hpne
  refine List.Pairwise.chain' (List.Pairwise.imp ?_ hcomb)
  intro a b hab
  rcases hab with ⟨h1 | ⟨heq, hle⟩, hne⟩
  · exact Or.inl h1
  · exact Or.inr ⟨heq, lt_of_le_of_ne hle hne⟩

/-- C8 witness: the sortedness property applied to a concrete query result
(the query of an unrecorded key on the empty storage, which returns the
empty list). -/
theorem query_sorted_descending_witness :
    ([] : List (Key × ℝ)).Chain'
      (fun p q => q.2 < p.2 ∨ (p.2 = q.2 ∧ p.1 < q.1)) :=
  query_sorted_descending Unit stEmpty idxOneBand 0 0 [] rfl

/-- C1 counterexample: on the empty storage (nothing ever recorded), the
query for any key returns the empty list, so the queried key is not
unconditionally present with similarity 1.0 — it only enters the result via
the membership sets that `record` populates. -/
theorem query_contains_self_claim_counterexample :
    MinHashIndex.query stEmpty idxOneBand 0 0 = some [] ∧
    ((0 : Key), (1 : ℝ)) ∉ ([] : List (Key × ℝ)) :=
  ⟨rfl, by simp⟩

/-- C1 (amended): on every well-formed storage state (positive counts and
membership matching frequency entries, as `record` maintains), for every
index with at least one band and every key that has at least one recorded
frequency entry in some band, `query` succeeds and its result contains the
queried key with similarity exactly 1. -/
theorem query_contains_self (C : Type) (st : Storage) (idx : MinHashIndex C)
    (scope : Scope) (key : Key) (hwf : st.WellFormed)
    (hb : 1 ≤ idx.bands.length)
    (hrec : ∃ band, band < idx.bands.length ∧
      st.frequency scope band key ≠ []) :
    ∃ l, MinHashIndex.query st idx scope key = some l ∧
      (key, (1 : ℝ)) ∈ l := by
  have htf := fetch_key_frequencies_eq st idx scope key hwf
  have htflen : (scaledFreqs st idx.bands.length scope key).length =
      idx.bands.length := scaledFreqs_length st idx.bands.length scope key
  have hfreqs : fetch_bucket_frequencies st idx scope
      ((fetch_candidates st scope
        (scaledFreqs st idx.bands.length scope key)).foldl lunion []) =
      some (((fetch_candidates st scope
        (scaledFreqs st idx.bands.length scope key)).foldl lunion []).map
        fun k => (k, scaledFreqs st idx.bands.length scope k)) :=
    mapO_eq_some_of_forall _ _ _ (fun k _ => by
      rw [fetch_key_frequencies_eq st idx scope k hwf]
      rfl)
  have hscored : mapO (fun kf =>
      (idx.get_similarity (scaledFreqs st idx.bands.length scope key) kf.2).map
        (fun s => (kf.1, s)))
      (((fetch_candidates st scope
        (scaledFreqs st idx.bands.length scope key)).foldl lunion []).map
        fun k => (k, scaledFreqs st idx.bands.length scope k)) =
      some ((((fetch_candidates st scope
        (scaledFreqs st idx.bands.length scope key)).foldl lunion []).map
        (fun k => (k, scaledFreqs st idx.bands.length scope k))).map
        (fun kf => (kf.1, simRaw (scaledFreqs st idx.bands.length scope key) kf.2))) :=
    mapO_eq_some_of_forall _ _ _ (fun kf hkf => by
      rcases List.mem_map.mp hkf with ⟨k, _, rfl⟩
      rw [get_similarity_eq_simRaw idx _ _
        (htflen.trans (scaledFreqs_length st idx.bands.length scope k).symm)
        htflen (by omega)]
      rfl)
  have hq : MinHashIndex.query st idx scope key =
      some (@List.insertionSort _ simOrder
        (fun p q => Classical.propDecidable _)
        ((((fetch_candidates st scope
          (scaledFreqs st idx.bands.length scope key)).foldl lunion []).map
          (fun k => (k, scaledFreqs st idx.bands.length scope k))).map
          (fun kf => (kf.1,
            simRaw (scaledFreqs st idx.bands.length scope key) kf.2)))) := by
    rw [query_eq, htf, Option.some_bind, hfreqs, Option.some_bind, hscored,
      Option.some_bind]
  refine ⟨_, hq, ?_⟩
  have hkeycand : key ∈ (fetch_candidates st scope
      (scaledFreqs st idx.bands.length scope key)).foldl lunion [] := by
    rcases hrec with ⟨b, hbn, hne⟩
    rcases hfq : st.frequency scope b key with _ | ⟨p, ps⟩
    · exact absurd hfq hne
    have hp : p ∈ st.frequency scope b key := by
      rw [hfq]; exact List.mem_cons_self p ps
    have hkeysm : key ∈ st.smembers scope b p.1 := by
      rw [Storage.smembers]
      exact List.mem_dedup.mpr ((hwf scope b key).2 p hp)
    have hp1 : p.1 ∈ (scaledDist st scope b key).map Prod.fst := by
      rw [scaledDist, List.map_map]
      exact List.mem_map.mpr ⟨p, hp, rfl⟩
    have hblt : b < (scaledFreqs st idx.bands.length scope key).length := by
      omega
    have htfb : (scaledFreqs st idx.bands.length scope key).get ⟨b, hblt⟩ =
        scaledDist st scope b key := by
      simp [scaledFreqs]
    have henum : (b, scaledDist st scope b key) ∈
        (scaledFreqs st idx.bands.length scope key).enum := by
      have hblen : b < (scaledFreqs st idx.bands.length scope key).enum.length := by
        simpa using hblt
      have hmem := List.getElem_mem hblen
      rw [List.getElem_enum] at hmem
      rw [List.get_eq_getElem] at htfb
      rw [htfb] at hmem
      exact hmem
    have hbandlist : (((b, scaledDist st scope b key).2.map Prod.fst).foldl
        (fun values bucket =>
          lunion values (st.smembers scope (b, scaledDist st scope b key).1 bucket))
        []) ∈ fetch_candidates st scope
        (scaledFreqs st idx.bands.length scope key) :=
      List.mem_map_of_mem _ henum
    have hkeybl : key ∈ ((b, scaledDist st scope b key).2.map Prod.fst).foldl
        (fun values bucket =>
          lunion values (st.smembers scope (b, scaledDist st scope b key).1 bucket))
        [] := by
      rw [← List.foldl_map]
      refine (mem_foldl_lunion _ _ _).mpr (Or.inr ?_)
      exact ⟨st.smembers scope b p.1, List.mem_map_of_mem _ hp1, hkeysm⟩
    exact (mem_foldl_lunion _ _ _).mpr (Or.inr ⟨_, hbandlist, hkeybl⟩)
  have hmem1 : (key, (1 : ℝ)) ∈
      ((((fetch_candidates st scope
        (scaledFreqs st idx.bands.length scope key)).foldl lunion []).map
        (fun k => (k, scaledFreqs st idx.bands.length scope k))).map
        (fun kf => (kf.1,
          simRaw (scaledFreqs st idx.bands.length scope key) kf.2))) := by
    have h1 : (key, scaledFreqs st idx.bands.length scope key) ∈
        (((fetch_candidates st scope
          (scaledFreqs st idx.bands.length scope key)).foldl lunion []).map
          (fun k => (k, scaledFreqs st idx.bands.length scope k))) :=
      List.mem_map_of_mem _ hkeycand
    have h2 := List.mem_map_of_mem
      (fun kf : Key × List FreqDist => (kf.1,
        simRaw (scaledFreqs st idx.bands.length scope key) kf.2)) h1
    simpa [simRaw_self] using h2
  exact (@List.perm_insertionSort _ simOrder
    (fun p q => Classical.propDecidable _) _).mem_iff.mpr hmem1

/-- Storage state after recording key 0 once in scope 0 on a one-band index:
the single frequency fact maps bucket encoding 5 to count 1, matched by the
membership fact. -/
def stOne : Storage :=
  ⟨fun scope band e => if scope = 0 ∧ band = 0 ∧ e = 5 then [0] else [],
   fun scope band k => if scope = 0 ∧ band = 0 ∧ k = 0 then [(5, 1)] else []⟩

theorem stOne_wf : stOne.WellFormed := by
  intro scope band k
  constructor
  · intro p hp
    simp only [stOne] at hp
    split_ifs at hp with hc
    · simp only [List.mem_singleton] at hp
      rw [hp]
      norm_num
    · simp at hp
  · intro p hp
    simp only [stOne] at hp
    split_ifs at hp with hc
    · simp only [List.mem_singleton] at hp
      rcases hc with ⟨h1, h2, h3⟩
      subst h1; subst h2; subst h3
      simp [stOne, hp]
    · simp at hp

/-- C1 witness: the amended containment property evaluated on the concrete
single-record storage and the `(2, 1, 1)` index. -/
theorem query_contains_self_witness :
    ∃ l, MinHashIndex.query stOne idxOneBand 0 0 = some l ∧
      ((0 : Key), (1 : ℝ)) ∈ l :=
  query_contains_self Unit stOne idxOneBand 0 0 stOne_wf (by decide)
    ⟨0, by decide, by decide⟩

end Sentry
